import Mathlib

/-!
Verification of the session-token manager and admission controller of the
novel-summarizer service, as a shallow embedding of `src/auth.js`,
`src/rate-limiter.js`, `src/models/Token.js`, `src/models/User.js` and the
`Request` model.  Timestamps are integer milliseconds since the epoch
(JavaScript `Date.getTime()`); MongoDB stores are modelled as lists of
records, `findOne` as first match in insertion order, `findOne` with
`sort({timestamp: -1})` as the maximum-timestamp match (ties broken by
insertion order), and `deleteOne` as removal of the first matching record.
-/

namespace NovelSummarizer

/-- Token expiry TTL: `TOKEN_EXPIRATION_MS = 7 * 24 * 60 * 60 * 1000` in auth.js. -/
def TOKEN_EXPIRATION_MS : Int := 7 * 24 * 60 * 60 * 1000

/-- Maximum refresh age: `MAX_REFRESH_AGE = 30 * 24 * 60 * 60 * 1000` in the
refresh-token route of auth.js. -/
def MAX_REFRESH_AGE : Int := 30 * 24 * 60 * 60 * 1000

/-- One document of the `Token` collection (models/Token.js): Mongo `_id`,
the opaque token string, the owning user's id, creation time and absolute
expiry time. -/
structure TokenRecord where
  id : Nat
  token : String
  user : Nat
  created : Int
  expiresAt : Int
deriving DecidableEq

/-- The `Token` collection, in insertion order. -/
abbrev TokenStore := List TokenRecord

/-- Embedding of `Token.findOne({ token: tokenStr })`: the first stored record
whose token string matches. -/
def findToken (s : TokenStore) (tstr : String) : Option TokenRecord :=
  s.find? (fun r => r.token == tstr)

/-- Embedding of `Token.deleteOne({ _id: id })`: removes the first record with
the given `_id` (at most one exists since `_id` is unique). -/
def deleteOneById : TokenStore → Nat → TokenStore
  | [], _ => []
  | r :: rs, i => if r.id == i then rs else r :: deleteOneById rs i

/-- Embedding of `Token.deleteOne({ token: tokenStr })` (logout route):
removes the first record with the given token string. -/
def deleteOneByToken : TokenStore → String → TokenStore
  | [], _ => []
  | r :: rs, t => if r.token == t then rs else r :: deleteOneByToken rs t

/-- Outcome of the verify-token route: 401 with no record, 401 `expired: true`,
or 200 with the owning user and the expiry. -/
inductive VerifyResult
  | notFound
  | expired
  | valid (user : Nat) (expiresAt : Int)
deriving DecidableEq

/-- Embedding of `POST /auth/verify-token` (auth.js): look the token up; if
absent answer not-found; if `now >= expiresAt` delete the record and answer
expired; else answer the owning user and expiry.  Returns the result together
with the token store after the call. -/
def verifyToken (s : TokenStore) (tstr : String) (now : Int) :
    VerifyResult × TokenStore :=
  match findToken s tstr with
  | none => (VerifyResult.notFound, s)
  | some td =>
    if now ≥ td.expiresAt then
      (VerifyResult.expired, deleteOneById s td.id)
    else
      (VerifyResult.valid td.user td.expiresAt, s)

/-- Outcome of the refresh-token route. -/
inductive RefreshResult
  | notFound
  | tooOld
  | refreshed (newToken : String) (user : Nat) (expiresAt : Int)
deriving DecidableEq

/-- Embedding of `POST /auth/refresh-token` (auth.js): look the token up; if
absent answer not-found; if `now - created > MAX_REFRESH_AGE` delete it and
answer too-old; otherwise create a new token record for the same user with
`created = now` and `expiresAt = now + TOKEN_EXPIRATION_MS`, then delete the
old record.  The fresh random token string and fresh `_id` chosen by the route
are passed in as `newVal` / `newId`. -/
def refreshToken (s : TokenStore) (tstr : String) (now : Int)
    (newVal : String) (newId : Nat) : RefreshResult × TokenStore :=
  match findToken s tstr with
  | none => (RefreshResult.notFound, s)
  | some td =>
    if now - td.created > MAX_REFRESH_AGE then
      (RefreshResult.tooOld, deleteOneById s td.id)
    else
      let expiresAt := now + TOKEN_EXPIRATION_MS
      let s1 := s ++ [⟨newId, newVal, td.user, now, expiresAt⟩]
      (RefreshResult.refreshed newVal td.user expiresAt, deleteOneById s1 td.id)

/-- Embedding of `POST /auth/logout` (auth.js): `Token.deleteOne({ token })`;
the route answers 200 success whether or not the token existed. -/
def endSession (s : TokenStore) (tstr : String) : TokenStore :=
  deleteOneByToken s tstr

/-- Per-category minimum inter-request interval, `this.limits` of
rate-limiter.js: category 1 (quality) 30 minutes, 2 (balanced) 1 minute,
3 (speed) 20 seconds; any other key is absent. -/
def limits (q : String) : Option Int :=
  if q = "1" then some (30 * 60 * 1000)
  else if q = "2" then some (60 * 1000)
  else if q = "3" then some (20 * 1000)
  else none

/-- Daily per-origin cap, `this.maxDailyRequestsPerIp = 100`. -/
def maxDailyRequestsPerIp : Nat := 100

/-- One document of the `Request` collection (the ledger): user id, category,
labels, payload size, origin string and timestamp. -/
structure ReqRecord where
  user : Nat
  qualitySpeed : String
  novelTitle : String
  chapterTitle : String
  contentLength : Int
  ip : String
  timestamp : Int
deriving DecidableEq

/-- The `Request` collection, in insertion order. -/
abbrev ReqStore := List ReqRecord

/-- Accumulator step for taking the maximum-timestamp record, keeping the
earlier record on ties (Mongo sorts stably by `timestamp: -1`). -/
def recentStep (acc : Option ReqRecord) (r : ReqRecord) : Option ReqRecord :=
  match acc with
  | none => some r
  | some m => some (if r.timestamp > m.timestamp then r else m)

/-- Embedding of `Request.findOne(filter).sort({ timestamp: -1 })`: among the
matching records, the one with the greatest timestamp, earliest-inserted on
ties. -/
def mostRecent (s : ReqStore) (p : ReqRecord → Bool) : Option ReqRecord :=
  (s.filter p).foldl recentStep none

/-- The `{ user: userId, qualitySpeed, timestamp: { $gt: now - w } }` filter
of the first check. -/
def userWindowB (userId : Nat) (q : String) (w now : Int) : ReqRecord → Bool :=
  fun r => r.user == userId && r.qualitySpeed == q && now - w < r.timestamp

/-- The `{ ip: ipAddress, qualitySpeed, timestamp: { $gt: now - w } }` filter
of the second check (across all users). -/
def ipWindowB (ip : String) (q : String) (w now : Int) : ReqRecord → Bool :=
  fun r => r.ip == ip && r.qualitySpeed == q && now - w < r.timestamp

/-- Embedding of the daily `Request.countDocuments({ ip, timestamp: { $gt:
now - 24h } })`. -/
def dailyCount (s : ReqStore) (ip : String) (now : Int) : Nat :=
  s.countP (fun r => r.ip == ip && now - 24 * 60 * 60 * 1000 < r.timestamp)

/-- Machine-readable denial reasons of `canMakeRequest`
(`user_rate_limit`, `ip_rate_limit`, `ip_daily_limit`). -/
inductive DenyReason
  | userRateLimit
  | ipRateLimit
  | ipDailyLimit
deriving DecidableEq

/-- The object `canMakeRequest` resolves to: `canRequest`, nullable `reason`,
nullable `timeRemaining` milliseconds. -/
structure Decision where
  canRequest : Bool
  reason : Option DenyReason
  timeRemaining : Option Int
deriving DecidableEq

/-- Body of `canMakeRequest` after the `limitMs` lookup, with `limitMs` as the
explicit local it is in the source: user-window check, then (when the origin
string is non-empty, i.e. truthy) origin-window check, then daily origin
count, else allow. -/
def admissionCore (s : ReqStore) (userId : Nat) (qualitySpeed : String)
    (limitMs : Int) (ipAddress : String) (now : Int) : Decision :=
  match mostRecent s (userWindowB userId qualitySpeed limitMs now) with
  | some recentUserRequest =>
    ⟨false, some DenyReason.userRateLimit,
      some (recentUserRequest.timestamp + limitMs - now)⟩
  | none =>
    if ipAddress ≠ "" then
      match mostRecent s (ipWindowB ipAddress qualitySpeed limitMs now) with
      | some recentIpRequest =>
        ⟨false, some DenyReason.ipRateLimit,
          some (recentIpRequest.timestamp + limitMs - now)⟩
      | none =>
        if maxDailyRequestsPerIp ≤ dailyCount s ipAddress now then
          ⟨false, some DenyReason.ipDailyLimit, none⟩
        else
          ⟨true, none, some 0⟩
    else
      ⟨true, none, some 0⟩

/-- The window lookup `this.limits[qualitySpeed] || this.limits['2']`: the
category's own window, or the balanced one-minute default for an unknown
category. -/
def windowFor (q : String) : Int := (limits q).getD (60 * 1000)

/-- Embedding of `RateLimiter.canMakeRequest(userId, qualitySpeed, ipAddress)`:
resolve `limitMs` via `windowFor`, then the three checks of `admissionCore`.
An absent/falsy origin is the empty string. -/
def canMakeRequest (s : ReqStore) (userId : Nat) (qualitySpeed : String)
    (ipAddress : String) (now : Int) : Decision :=
  admissionCore s userId qualitySpeed (windowFor qualitySpeed) ipAddress now

/-- JavaScript `x || 0` on a nullable number: null and 0 coerce to 0. -/
def jsOrZero : Option Int → Int
  | none => 0
  | some v => if v = 0 then 0 else v

/-- Embedding of `RateLimiter.getTimeRemaining`:
`result.canRequest ? 0 : (result.timeRemaining || 0)`. -/
def getTimeRemaining (s : ReqStore) (userId : Nat) (qualitySpeed : String)
    (ipAddress : String) (now : Int) : Int :=
  let result := canMakeRequest s userId qualitySpeed ipAddress now
  if result.canRequest then 0 else jsOrZero result.timeRemaining

/-- One element of a user's `ipAddresses` array (models/User.js). -/
structure IpEntry where
  ip : String
  firstSeen : Int
  lastUsed : Int
  requestCount : Int
deriving DecidableEq

/-- A `User` document, restricted to the fields the claims touch. -/
structure UserRecord where
  id : Nat
  ipAddresses : List IpEntry
deriving DecidableEq

/-- The `existingIp` branch of `updateIpAddress`: `this.ipAddresses.find`
returns the first entry with the given origin, whose `lastUsed` is set to now
and whose `requestCount` is incremented in place. -/
def touchExisting : List IpEntry → String → Int → List IpEntry
  | [], _, _ => []
  | e :: es, a, n =>
    if e.ip == a then
      { e with lastUsed := n, requestCount := e.requestCount + 1 } :: es
    else
      e :: touchExisting es a n

/-- The comparator `(a, b) => b.lastUsed - a.lastUsed`: sort descending by
`lastUsed`. -/
def lastUsedDesc (a b : IpEntry) : Bool := b.lastUsed ≤ a.lastUsed

/-- Stable insertion into a descending-by-`lastUsed` list: the inserted
element, which precedes the tail in the original array, stays in front of
entries with an equal key, as JavaScript's stable `Array.prototype.sort`
keeps it. -/
def insertDesc (e : IpEntry) : List IpEntry → List IpEntry
  | [] => [e]
  | x :: xs =>
    if lastUsedDesc e x then e :: x :: xs else x :: insertDesc e xs

/-- Model of `this.ipAddresses.sort((a, b) => b.lastUsed - a.lastUsed)`:
a stable descending sort by `lastUsed` (stable sorts under one total
preorder agree on every input, so insertion sort is an exact model of the
engine's sort). -/
def sortDesc : List IpEntry → List IpEntry
  | [] => []
  | x :: xs => insertDesc x (sortDesc xs)

/-- Embedding of `userSchema.methods.updateIpAddress(ipAddress)` at time
`now`: no-op on a falsy origin; touch the existing entry or push a fresh one;
when the array exceeds 10, sort descending by `lastUsed` and keep the first
10. -/
def updateIpAddress (l : List IpEntry) (ipAddress : String) (now : Int) :
    List IpEntry :=
  if ipAddress = "" then l
  else
    let l1 :=
      if l.any (fun e => e.ip == ipAddress) then touchExisting l ipAddress now
      else l ++ [⟨ipAddress, now, now, 1⟩]
    if 10 < l1.length then (sortDesc l1).take 10 else l1

/-- The whole durable state the two subsystems touch: the `User`, `Request`
and `Token` collections. -/
structure AppState where
  users : List UserRecord
  requests : ReqStore
  tokens : TokenStore
deriving DecidableEq

/-- `canMakeRequest` as an operation on the whole state: its body performs
only `findOne` and `countDocuments` reads on the `Request` collection, so the
state it leaves behind is the state it was given. -/
def checkAdmission (st : AppState) (userId : Nat) (qualitySpeed : String)
    (ipAddress : String) (now : Int) : Decision × AppState :=
  (canMakeRequest st.requests userId qualitySpeed ipAddress now, st)

/-- Mongoose `user.save()` on a fetched document: the stored record with the
same `_id` is replaced. -/
def saveUser : List UserRecord → UserRecord → List UserRecord
  | [], _ => []
  | u :: us, v => if u.id == v.id then v :: us else u :: saveUser us v

/-- Embedding of `RateLimiter.recordRequest`: default the category to "2" when
falsy, append one ledger entry with `timestamp = now`, and when the origin is
truthy fetch the user by id and apply `updateIpAddress` to it. -/
def recordRequest (st : AppState) (userId : Nat) (qualitySpeed : String)
    (chapterTitle novelTitle : String) (contentLength : Int) (ip : String)
    (now : Int) : AppState :=
  let qs := if qualitySpeed = "" then "2" else qualitySpeed
  let st1 := { st with requests := st.requests ++
      [⟨userId, qs, novelTitle, chapterTitle, contentLength, ip, now⟩] }
  if ip = "" then st1
  else
    match st1.users.find? (fun u => u.id == userId) with
    | none => st1
    | some user =>
      let u2 : UserRecord :=
        { user with ipAddresses := updateIpAddress user.ipAddresses ip now }
      { st1 with users := saveUser st1.users u2 }

/-! ### Helper lemmas about the token store -/

theorem deleteOneByToken_of_forall_ne (s : TokenStore) (tstr : String)
    (h : ∀ r ∈ s, r.token ≠ tstr) : deleteOneByToken s tstr = s := by
  induction s with
  | nil => rfl
  | cons r rs ih =>
    have hr : r.token ≠ tstr := h r (List.mem_cons_self r rs)
    have ih2 := ih (fun x hx => h x (List.mem_cons_of_mem r hx))
    simp [deleteOneByToken, hr, ih2]

theorem deleteOneByToken_eq_filter (s : TokenStore) (tstr : String)
    (h : (s.map TokenRecord.token).Nodup) :
    deleteOneByToken s tstr = s.filter (fun r => !(r.token == tstr)) := by
  induction s with
  | nil => rfl
  | cons r rs ih =>
    simp only [List.map_cons, List.nodup_cons] at h
    by_cases hr : r.token = tstr
    · have hrs : ∀ x ∈ rs, x.token ≠ tstr := fun x hx hxx =>
        h.1 (hr ▸ hxx ▸ List.mem_map_of_mem TokenRecord.token hx)
      have hfil : List.filter (fun r => !(r.token == tstr)) rs = rs :=
        List.filter_eq_self.mpr (fun x hx => by simpa using hrs x hx)
      simp [deleteOneByToken, hr, List.filter_cons, hfil]
    · simp [deleteOneByToken, hr, List.filter_cons, ih h.2]

theorem deleteOneById_eq_filter (s : TokenStore) (i : Nat)
    (h : (s.map TokenRecord.id).Nodup) :
    deleteOneById s i = s.filter (fun r => !(r.id == i)) := by
  induction s with
  | nil => rfl
  | cons r rs ih =>
    simp only [List.map_cons, List.nodup_cons] at h
    by_cases hr : r.id = i
    · have hrs : ∀ x ∈ rs, x.id ≠ i := fun x hx hxx =>
        h.1 (hr ▸ hxx ▸ List.mem_map_of_mem TokenRecord.id hx)
      have hfil : List.filter (fun r => !(r.id == i)) rs = rs :=
        List.filter_eq_self.mpr (fun x hx => by simpa using hrs x hx)
      simp [deleteOneById, hr, List.filter_cons, hfil]
    · simp [deleteOneById, hr, List.filter_cons, ih h.2]

theorem deleteOneById_append_of_mem (s t : TokenStore) (i : Nat)
    (h : ∃ r ∈ s, r.id = i) :
    deleteOneById (s ++ t) i = deleteOneById s i ++ t := by
  induction s with
  | nil => simp at h
  | cons r rs ih =>
    by_cases hr : r.id = i
    · simp [deleteOneById, hr]
    · obtain ⟨x, hx, hxi⟩ := h
      rcases List.mem_cons.mp hx with rfl | hx2
      · exact absurd hxi hr
      · simp [deleteOneById, hr, ih ⟨x, hx2, hxi⟩]

theorem findToken_eq_some_of_mem (s : TokenStore) (tstr : String)
    (r : TokenRecord) (h : (s.map TokenRecord.token).Nodup)
    (hr : r ∈ s) (ht : r.token = tstr) : findToken s tstr = some r := by
  induction s with
  | nil => simp at hr
  | cons a rs ih =>
    simp only [List.map_cons, List.nodup_cons] at h
    rcases List.mem_cons.mp hr with rfl | hr2
    · simp [findToken, List.find?_cons, ht]
    · have ha : a.token ≠ tstr := fun haa =>
        h.1 (haa ▸ ht ▸ List.mem_map_of_mem TokenRecord.token hr2)
      have ih2 := ih h.2 hr2
      simp only [findToken] at ih2 ⊢
      simp [List.find?_cons, ha, ih2]

theorem findToken_eq_none_iff (s : TokenStore) (tstr : String) :
    findToken s tstr = none ↔ ∀ r ∈ s, r.token ≠ tstr := by
  simp [findToken, List.find?_eq_none]

/-- C7: endSession (the logout route's `Token.deleteOne({ token })`) is
idempotent: under the schema's uniqueness of token values, deleting twice
equals deleting once, deleting an absent token leaves the store untouched,
the token is absent afterwards, and exactly the records with other token
values survive. -/
theorem endSession_idempotent (s : TokenStore) (tstr : String)
    (h : (s.map TokenRecord.token).Nodup) :
    endSession (endSession s tstr) tstr = endSession s tstr ∧
    (findToken s tstr = none → endSession s tstr = s) ∧
    findToken (endSession s tstr) tstr = none ∧
    (∀ r, r ∈ endSession s tstr ↔ r ∈ s ∧ r.token ≠ tstr) := by
  have hfil := deleteOneByToken_eq_filter s tstr h
  refine ⟨?_, ?_, ?_, ?_⟩
  · show deleteOneByToken (deleteOneByToken s tstr) tstr = deleteOneByToken s tstr
    rw [hfil]
    refine deleteOneByToken_of_forall_ne _ _ ?_
    intro r hr
    have := (List.mem_filter.mp hr).2
    simpa using this
  · intro hnone
    exact deleteOneByToken_of_forall_ne s tstr
      ((findToken_eq_none_iff s tstr).mp hnone)
  · show findToken (deleteOneByToken s tstr) tstr = none
    rw [hfil, findToken_eq_none_iff]
    intro r hr
    have := (List.mem_filter.mp hr).2
    simpa using this
  · intro r
    show r ∈ deleteOneByToken s tstr ↔ _
    rw [hfil, List.mem_filter]
    simp

/-- C7 witness: a concrete two-token store. -/
theorem endSession_idempotent_witness :
    endSession (endSession [⟨1, "a", 1, 0, 10⟩, ⟨2, "b", 2, 0, 10⟩] "a") "a" =
      endSession [⟨1, "a", 1, 0, 10⟩, ⟨2, "b", 2, 0, 10⟩] "a" ∧
    findToken (endSession [⟨1, "a", 1, 0, 10⟩, ⟨2, "b", 2, 0, 10⟩] "a") "a" =
      none := by
  have h := endSession_idempotent [⟨1, "a", 1, 0, 10⟩, ⟨2, "b", 2, 0, 10⟩] "a"
    (by decide)
  exact ⟨h.1, h.2.2.1⟩

/-- C2: verify succeeds with the owning identity iff a record with that token
value exists and now is strictly before its expiry; on an expired token the
record is deleted before answering expired, so afterwards the value is not
found at any time; an absent value answers not-found.  The uniqueness
hypotheses are the `unique: true` of the token field and of Mongo `_id`. -/
theorem verifyToken_spec (s : TokenStore) (tstr : String) (now : Int)
    (hTok : (s.map TokenRecord.token).Nodup)
    (hId : (s.map TokenRecord.id).Nodup) :
    ((∃ u e, (verifyToken s tstr now).1 = VerifyResult.valid u e) ↔
      ∃ r ∈ s, r.token = tstr ∧ now < r.expiresAt) ∧
    (∀ r ∈ s, r.token = tstr → now < r.expiresAt →
      verifyToken s tstr now = (VerifyResult.valid r.user r.expiresAt, s)) ∧
    (∀ r ∈ s, r.token = tstr → r.expiresAt ≤ now →
      (verifyToken s tstr now).1 = VerifyResult.expired ∧
      (∀ x ∈ (verifyToken s tstr now).2, x ∈ s) ∧
      ∀ now2, verifyToken (verifyToken s tstr now).2 tstr now2 =
        (VerifyResult.notFound, (verifyToken s tstr now).2)) ∧
    (findToken s tstr = none →
      verifyToken s tstr now = (VerifyResult.notFound, s)) := by
  have valid_clause : ∀ r ∈ s, r.token = tstr → now < r.expiresAt →
      verifyToken s tstr now = (VerifyResult.valid r.user r.expiresAt, s) := by
    intro r hr ht hlt
    have hf := findToken_eq_some_of_mem s tstr r hTok hr ht
    simp [verifyToken, hf, not_le.mpr hlt]
  refine ⟨?_, valid_clause, ?_, ?_⟩
  · constructor
    · rintro ⟨u, e, hv⟩
      match hfind : findToken s tstr with
      | none => simp [verifyToken, hfind] at hv
      | some td =>
        have htd_mem : td ∈ s := List.mem_of_find?_eq_some hfind
        have htd_tok : td.token = tstr := by
          have := List.find?_some hfind
          simpa using this
        by_cases hexp : now ≥ td.expiresAt
        · simp [verifyToken, hfind, hexp] at hv
        · exact ⟨td, htd_mem, htd_tok, lt_of_not_ge hexp⟩
    · rintro ⟨r, hr, ht, hlt⟩
      exact ⟨r.user, r.expiresAt, by rw [valid_clause r hr ht hlt]⟩
  · intro r hr ht hle
    have hf := findToken_eq_some_of_mem s tstr r hTok hr ht
    have hres : verifyToken s tstr now =
        (VerifyResult.expired, deleteOneById s r.id) := by
      simp [verifyToken, hf, hle]
    have hdel := deleteOneById_eq_filter s r.id hId
    have hnone : findToken (deleteOneById s r.id) tstr = none := by
      rw [hdel, findToken_eq_none_iff]
      intro x hx
      have hx_mem : x ∈ s := (List.mem_filter.mp hx).1
      have hx_ne : ¬(x.id == r.id) = true := by
        simpa using (List.mem_filter.mp hx).2
      intro hxt
      exact hx_ne (by simp [List.inj_on_of_nodup_map hTok hx_mem hr (hxt.trans ht.symm)])
    refine ⟨by rw [hres], ?_, ?_⟩
    · intro x hx
      rw [hres] at hx
      exact (List.mem_filter.mp (hdel ▸ hx)).1
    · intro now2
      rw [hres]
      simp [verifyToken, hnone]
  · intro hnone
    simp [verifyToken, hnone]

/-- C2 witness: a one-token store verified before and at its expiry. -/
theorem verifyToken_spec_witness :
    verifyToken [⟨1, "t", 7, 0, 100⟩] "t" 50 =
      (VerifyResult.valid 7 100, [⟨1, "t", 7, 0, 100⟩]) ∧
    (verifyToken [⟨1, "t", 7, 0, 100⟩] "t" 100).1 = VerifyResult.expired := by
  have h50 := verifyToken_spec [⟨1, "t", 7, 0, 100⟩] "t" 50 (by decide) (by decide)
  have h100 := verifyToken_spec [⟨1, "t", 7, 0, 100⟩] "t" 100 (by decide) (by decide)
  exact ⟨h50.2.1 ⟨1, "t", 7, 0, 100⟩ (by simp) rfl (by decide),
    (h100.2.2.1 ⟨1, "t", 7, 0, 100⟩ (by simp) rfl (by decide)).1⟩

/-- C1 counterexample: a token created at 0 with expiry 604800000 (7 days),
examined at 691200000 (day 8).  Verify answers expired, yet refresh — which
never consults `expiresAt` — succeeds, so refresh does not fail whenever
verify would, and an expired token is successfully refreshed. -/
theorem refresh_ignores_expiry_cex :
    (verifyToken [⟨1, "t", 5, 0, 604800000⟩] "t" 691200000).1 =
      VerifyResult.expired ∧
    (refreshToken [⟨1, "t", 5, 0, 604800000⟩] "t" 691200000 "n" 2).1 =
      RefreshResult.refreshed "n" 5 1296000000 := by decide

/-- C1 amended: refresh fails with not-found when the token value is absent
and with too-old (deleting the record) when `now - created` exceeds
`MAX_REFRESH_AGE`; those are its only failure checks — it performs no expiry
comparison, so any found token within the refresh age is refreshed
successfully, expired or not. -/
theorem refreshToken_checks (s : TokenStore) (tstr : String) (now : Int)
    (newVal : String) (newId : Nat) :
    (findToken s tstr = none →
      refreshToken s tstr now newVal newId = (RefreshResult.notFound, s)) ∧
    (∀ td, findToken s tstr = some td → MAX_REFRESH_AGE < now - td.created →
      refreshToken s tstr now newVal newId =
        (RefreshResult.tooOld, deleteOneById s td.id)) ∧
    (∀ td, findToken s tstr = some td → now - td.created ≤ MAX_REFRESH_AGE →
      (refreshToken s tstr now newVal newId).1 =
        RefreshResult.refreshed newVal td.user (now + TOKEN_EXPIRATION_MS)) := by
  refine ⟨?_, ?_, ?_⟩
  · intro h
    simp [refreshToken, h]
  · intro td h hage
    simp [refreshToken, h, hage]
  · intro td h hage
    simp [refreshToken, h, not_lt.mpr hage]

/-- C1 amended witness: the day-8 token of the counterexample goes through
the success clause. -/
theorem refreshToken_checks_witness :
    (refreshToken [⟨1, "t", 5, 0, 604800000⟩] "t" 691200000 "n" 2).1 =
      RefreshResult.refreshed "n" 5 (691200000 + TOKEN_EXPIRATION_MS) :=
  (refreshToken_checks [⟨1, "t", 5, 0, 604800000⟩] "t" 691200000 "n" 2).2.2
    ⟨1, "t", 5, 0, 604800000⟩ (by decide) (by decide)

/-- C6: a successful refresh of a stored token appends exactly one new record
bound to the same user with `created = now` and expiry `now +
TOKEN_EXPIRATION_MS`, removes exactly the old record (everything else
survives, in order), and returns the new token with that expiry; afterwards
the old value never verifies and the new value verifies until the new expiry.
Freshness of the random value and of the Mongo `_id` are hypotheses. -/
theorem refreshToken_success_spec (s : TokenStore) (tstr : String) (now : Int)
    (newVal : String) (newId : Nat) (r : TokenRecord)
    (hTok : (s.map TokenRecord.token).Nodup)
    (hId : (s.map TokenRecord.id).Nodup)
    (hr : r ∈ s) (ht : r.token = tstr)
    (hage : now - r.created ≤ MAX_REFRESH_AGE)
    (hNewVal : ∀ x ∈ s, x.token ≠ newVal) :
    refreshToken s tstr now newVal newId =
      (RefreshResult.refreshed newVal r.user (now + TOKEN_EXPIRATION_MS),
       s.filter (fun x => !(x.id == r.id)) ++
         [⟨newId, newVal, r.user, now, now + TOKEN_EXPIRATION_MS⟩]) ∧
    (∀ now2, (verifyToken (refreshToken s tstr now newVal newId).2 tstr now2).1 =
      VerifyResult.notFound) ∧
    (∀ now2, now2 < now + TOKEN_EXPIRATION_MS →
      verifyToken (refreshToken s tstr now newVal newId).2 newVal now2 =
        (VerifyResult.valid r.user (now + TOKEN_EXPIRATION_MS),
         (refreshToken s tstr now newVal newId).2)) := by
  have hfind := findToken_eq_some_of_mem s tstr r hTok hr ht
  have hstate : refreshToken s tstr now newVal newId =
      (RefreshResult.refreshed newVal r.user (now + TOKEN_EXPIRATION_MS),
       s.filter (fun x => !(x.id == r.id)) ++
         [⟨newId, newVal, r.user, now, now + TOKEN_EXPIRATION_MS⟩]) := by
    have happ := deleteOneById_append_of_mem s
      [⟨newId, newVal, r.user, now, now + TOKEN_EXPIRATION_MS⟩] r.id ⟨r, hr, rfl⟩
    have hdel := deleteOneById_eq_filter s r.id hId
    simp only [refreshToken, hfind, not_lt.mpr hage]
    rw [happ, hdel]
    simp
  have hfilter_sub : ∀ x ∈ s.filter (fun x => !(x.id == r.id)), x ∈ s :=
    fun x hx => (List.mem_filter.mp hx).1
  have hold_gone : findToken ((refreshToken s tstr now newVal newId).2) tstr =
      none := by
    rw [hstate, findToken_eq_none_iff]
    intro x hx
    rcases List.mem_append.mp hx with hx1 | hx2
    · have hx_mem := hfilter_sub x hx1
      have hx_ne : x.id ≠ r.id := by simpa using (List.mem_filter.mp hx1).2
      intro hxt
      exact hx_ne (by
        rw [List.inj_on_of_nodup_map hTok hx_mem hr (hxt.trans ht.symm)])
    · have hx_eq : x = ⟨newId, newVal, r.user, now, now + TOKEN_EXPIRATION_MS⟩ := by
        simpa using hx2
      subst hx_eq
      intro hxt
      exact hNewVal r hr (ht.trans hxt.symm)
  have hnew_found : findToken ((refreshToken s tstr now newVal newId).2) newVal =
      some ⟨newId, newVal, r.user, now, now + TOKEN_EXPIRATION_MS⟩ := by
    rw [hstate]
    show List.find? _ (_ ++ _) = _
    rw [List.find?_append]
    have h1 : List.find? (fun x => x.token == newVal)
        (s.filter (fun x => !(x.id == r.id))) = none := by
      rw [List.find?_eq_none]
      intro x hx
      have := hNewVal x (hfilter_sub x hx)
      simpa using this
    rw [h1]
    simp [List.find?_cons]
  refine ⟨hstate, ?_, ?_⟩
  · intro now2
    simp [verifyToken, hold_gone]
  · intro now2 hlt
    simp [verifyToken, hnew_found, not_le.mpr hlt]

/-- C6 witness: refreshing a live one-token store, then failing to verify the
old value. -/
theorem refreshToken_success_spec_witness :
    (verifyToken (refreshToken [⟨1, "t", 5, 0, 604800000⟩] "t" 100 "n" 2).2
      "t" 50).1 = VerifyResult.notFound :=
  (refreshToken_success_spec [⟨1, "t", 5, 0, 604800000⟩] "t" 100 "n" 2
    ⟨1, "t", 5, 0, 604800000⟩ (by decide) (by decide) (by decide) rfl
    (by decide) (by decide)).2.1 50

/-! ### Helper lemmas about the ledger queries -/

theorem foldl_recentStep_some (l : List ReqRecord) :
    ∀ m : ReqRecord, ∃ e, l.foldl recentStep (some m) = some e := by
  induction l with
  | nil => exact fun m => ⟨m, rfl⟩
  | cons a l ih =>
    intro m
    rw [List.foldl_cons]
    simpa [recentStep] using ih (if a.timestamp > m.timestamp then a else m)

theorem mostRecent_eq_none_iff (s : ReqStore) (p : ReqRecord → Bool) :
    mostRecent s p = none ↔ ∀ r ∈ s, ¬ p r := by
  unfold mostRecent
  constructor
  · intro h r hr hpr
    cases hf : s.filter p with
    | nil =>
      have : r ∈ s.filter p := List.mem_filter.mpr ⟨hr, hpr⟩
      rw [hf] at this
      simp at this
    | cons a l =>
      rw [hf, List.foldl_cons] at h
      have hstep : recentStep none a = some a := rfl
      rw [hstep] at h
      obtain ⟨e, he⟩ := foldl_recentStep_some l a
      rw [he] at h
      simp at h
  · intro h
    have hnil : s.filter p = [] := by
      rw [List.filter_eq_nil_iff]
      exact fun a ha => h a ha
    rw [hnil]
    rfl

theorem foldl_recentStep_max (l : List ReqRecord) :
    ∀ (acc : Option ReqRecord) (e : ReqRecord), l.foldl recentStep acc = some e →
      (acc = some e ∨ e ∈ l) ∧
      (∀ m, acc = some m → m.timestamp ≤ e.timestamp) ∧
      (∀ r ∈ l, r.timestamp ≤ e.timestamp) := by
  induction l with
  | nil =>
    intro acc e h
    have hae : acc = some e := h
    refine ⟨Or.inl hae, fun m hm => ?_, by simp⟩
    rw [hae] at hm
    cases hm
    exact le_refl _
  | cons a l ih =>
    intro acc e h
    rw [List.foldl_cons] at h
    cases acc with
    | none =>
      have h' : l.foldl recentStep (some a) = some e := h
      obtain ⟨h1, h2, h3⟩ := ih (some a) e h'
      have hae : a.timestamp ≤ e.timestamp := h2 a rfl
      refine ⟨?_, by simp, ?_⟩
      · right
        rcases h1 with h1 | h1
        · cases h1
          exact List.mem_cons_self _ _
        · exact List.mem_cons_of_mem a h1
      · intro r hr
        rcases List.mem_cons.mp hr with rfl | hr2
        · exact hae
        · exact h3 r hr2
    | some m =>
      have h' : l.foldl recentStep
          (some (if a.timestamp > m.timestamp then a else m)) = some e := h
      obtain ⟨h1, h2, h3⟩ := ih _ e h'
      have hbe : (if a.timestamp > m.timestamp then a else m).timestamp ≤
          e.timestamp := h2 _ rfl
      have hm_le : m.timestamp ≤ (if a.timestamp > m.timestamp then a
          else m).timestamp := by
        by_cases hab : a.timestamp > m.timestamp
        · simp [hab]
          exact le_of_lt hab
        · simp [hab]
      have ha_le : a.timestamp ≤ (if a.timestamp > m.timestamp then a
          else m).timestamp := by
        by_cases hab : a.timestamp > m.timestamp
        · simp [hab]
        · simp [hab]
          exact not_lt.mp hab
      refine ⟨?_, ?_, ?_⟩
      · rcases h1 with h1 | h1
        · by_cases hab : a.timestamp > m.timestamp
          · rw [if_pos hab] at h1
            cases h1
            exact Or.inr (List.mem_cons_self _ _)
          · rw [if_neg hab] at h1
            exact Or.inl h1
        · exact Or.inr (List.mem_cons_of_mem a h1)
      · intro m2 hm2
        cases hm2
        exact hm_le.trans hbe
      · intro r hr
        rcases List.mem_cons.mp hr with rfl | hr2
        · exact ha_le.trans hbe
        · exact h3 r hr2

theorem mostRecent_max (s : ReqStore) (p : ReqRecord → Bool) (e : ReqRecord)
    (h : mostRecent s p = some e) :
    e ∈ s ∧ p e = true ∧ ∀ r ∈ s, p r = true → r.timestamp ≤ e.timestamp := by
  unfold mostRecent at h
  obtain ⟨h1, _, h3⟩ := foldl_recentStep_max (s.filter p) none e h
  rcases h1 with h1 | h1
  · cases h1
  · have he := List.mem_filter.mp h1
    exact ⟨he.1, he.2,
      fun r hr hpr => h3 r (List.mem_filter.mpr ⟨hr, hpr⟩)⟩

theorem foldl_recentStep_keep (l : List ReqRecord) (m : ReqRecord) :
    (∀ r ∈ l, r.timestamp ≤ m.timestamp) →
    l.foldl recentStep (some m) = some m := by
  induction l with
  | nil => exact fun _ => rfl
  | cons a l ih =>
    intro h
    have ha : ¬ a.timestamp > m.timestamp :=
      not_lt.mpr (h a (List.mem_cons_self a l))
    rw [List.foldl_cons]
    have hstep : recentStep (some m) a = some m := by
      simp [recentStep, ha]
    rw [hstep]
    exact ih (fun r hr => h r (List.mem_cons_of_mem a hr))

theorem foldl_recentStep_strict (l : List ReqRecord) (e : ReqRecord) :
    ∀ acc : Option ReqRecord,
      e ∈ l → (∀ r ∈ l, r ≠ e → r.timestamp < e.timestamp) →
      (∀ m, acc = some m → m = e ∨ m.timestamp < e.timestamp) →
      l.foldl recentStep acc = some e := by
  induction l with
  | nil =>
    intro acc he
    simp at he
  | cons a l ih =>
    intro acc he hmax hacc
    rw [List.foldl_cons]
    by_cases hae : a = e
    · subst hae
      have hacc2 : recentStep acc a = some a := by
        cases acc with
        | none => rfl
        | some m =>
          rcases hacc m rfl with rfl | hlt
          · simp [recentStep]
          · simp [recentStep, hlt]
      rw [hacc2]
      exact foldl_recentStep_keep l a (fun r hr => by
        by_cases hre : r = a
        · exact hre ▸ le_refl _
        · exact le_of_lt (hmax r (List.mem_cons_of_mem a hr) hre))
    · have he2 : e ∈ l := by
        rcases List.mem_cons.mp he with h1 | h1
        · exact absurd h1.symm hae
        · exact h1
      have halt : a.timestamp < e.timestamp :=
        hmax a (List.mem_cons_self a l) hae
      apply ih _ he2 (fun r hr hre => hmax r (List.mem_cons_of_mem a hr) hre)
      intro m2 hm2
      cases acc with
      | none =>
        cases hm2
        exact Or.inr halt
      | some m =>
        rcases hacc m rfl with rfl | hlt
        · have : ¬ a.timestamp > m.timestamp := not_lt.mpr (le_of_lt halt)
          simp [recentStep, this] at hm2
          exact Or.inl hm2.symm
        · simp only [recentStep] at hm2
          cases hm2
          by_cases hab : a.timestamp > m.timestamp
          · simp [hab]
            exact Or.inr halt
          · simp [hab]
            exact Or.inr hlt

theorem mostRecent_eq_some_of_strict (s : ReqStore) (p : ReqRecord → Bool)
    (e : ReqRecord) (he : e ∈ s) (hpe : p e = true)
    (hmax : ∀ r ∈ s, p r = true → r ≠ e → r.timestamp < e.timestamp) :
    mostRecent s p = some e := by
  unfold mostRecent
  exact foldl_recentStep_strict (s.filter p) e none
    (List.mem_filter.mpr ⟨he, hpe⟩)
    (fun r hr hre =>
      hmax r (List.mem_filter.mp hr).1 (List.mem_filter.mp hr).2 hre)
    (fun m hm => by cases hm)

/-- Prop form of the identity-window filter `(identity, category, timestamp >
now - window)`. -/
def inUserWindow (userId : Nat) (q : String) (w now : Int)
    (r : ReqRecord) : Prop :=
  r.user = userId ∧ r.qualitySpeed = q ∧ now - w < r.timestamp

/-- Prop form of the origin-window filter `(origin, category, timestamp >
now - window)`, across all identities. -/
def inIpWindow (ip q : String) (w now : Int) (r : ReqRecord) : Prop :=
  r.ip = ip ∧ r.qualitySpeed = q ∧ now - w < r.timestamp

instance (userId : Nat) (q : String) (w now : Int) (r : ReqRecord) :
    Decidable (inUserWindow userId q w now r) := by
  unfold inUserWindow
  infer_instance

instance (ip q : String) (w now : Int) (r : ReqRecord) :
    Decidable (inIpWindow ip q w now r) := by
  unfold inIpWindow
  infer_instance

theorem userWindowB_iff (userId : Nat) (q : String) (w now : Int)
    (r : ReqRecord) :
    userWindowB userId q w now r = true ↔ inUserWindow userId q w now r := by
  simp [userWindowB, inUserWindow, and_assoc]

theorem ipWindowB_iff (ip q : String) (w now : Int) (r : ReqRecord) :
    ipWindowB ip q w now r = true ↔ inIpWindow ip q w now r := by
  simp [ipWindowB, inIpWindow, and_assoc]

/-- C3: one admission check evaluates, in order: the strictly most recent
ledger entry for (identity, category) inside the window denies with the
identity rate limit and `timeRemaining = entry.timestamp + window - now`;
else, only when an origin is supplied, the strictly most recent entry for
(origin, category) inside the window denies with the origin rate limit and
the same formula; else the daily origin cap; otherwise it admits. -/
theorem canMakeRequest_check_order (s : ReqStore) (userId : Nat)
    (q ip : String) (now : Int) :
    (∀ e ∈ s, inUserWindow userId q (windowFor q) now e →
      (∀ r ∈ s, inUserWindow userId q (windowFor q) now r → r ≠ e →
        r.timestamp < e.timestamp) →
      canMakeRequest s userId q ip now =
        ⟨false, some DenyReason.userRateLimit,
         some (e.timestamp + windowFor q - now)⟩) ∧
    ((∀ r ∈ s, ¬ inUserWindow userId q (windowFor q) now r) → ip ≠ "" →
      ∀ e ∈ s, inIpWindow ip q (windowFor q) now e →
      (∀ r ∈ s, inIpWindow ip q (windowFor q) now r → r ≠ e →
        r.timestamp < e.timestamp) →
      canMakeRequest s userId q ip now =
        ⟨false, some DenyReason.ipRateLimit,
         some (e.timestamp + windowFor q - now)⟩) ∧
    ((∀ r ∈ s, ¬ inUserWindow userId q (windowFor q) now r) → ip ≠ "" →
      (∀ r ∈ s, ¬ inIpWindow ip q (windowFor q) now r) →
      maxDailyRequestsPerIp ≤ dailyCount s ip now →
      canMakeRequest s userId q ip now =
        ⟨false, some DenyReason.ipDailyLimit, none⟩) ∧
    ((∀ r ∈ s, ¬ inUserWindow userId q (windowFor q) now r) → ip ≠ "" →
      (∀ r ∈ s, ¬ inIpWindow ip q (windowFor q) now r) →
      dailyCount s ip now < maxDailyRequestsPerIp →
      canMakeRequest s userId q ip now = ⟨true, none, some 0⟩) ∧
    ((∀ r ∈ s, ¬ inUserWindow userId q (windowFor q) now r) → ip = "" →
      canMakeRequest s userId q ip now = ⟨true, none, some 0⟩) := by
  refine ⟨?_, ?_, ?_, ?_, ?_⟩
  · intro e he hin hmax
    have hu : mostRecent s (userWindowB userId q (windowFor q) now) = some e :=
      mostRecent_eq_some_of_strict s _ e he
        ((userWindowB_iff userId q (windowFor q) now e).mpr hin)
        (fun r hr hpr hre =>
          hmax r hr ((userWindowB_iff userId q (windowFor q) now r).mp hpr) hre)
    simp [canMakeRequest, admissionCore, hu]
  · intro hnone hip e he hin hmax
    have hu : mostRecent s (userWindowB userId q (windowFor q) now) = none :=
      (mostRecent_eq_none_iff s _).mpr (fun r hr hpr =>
        hnone r hr ((userWindowB_iff userId q (windowFor q) now r).mp hpr))
    have hi : mostRecent s (ipWindowB ip q (windowFor q) now) = some e :=
      mostRecent_eq_some_of_strict s _ e he
        ((ipWindowB_iff ip q (windowFor q) now e).mpr hin)
        (fun r hr hpr hre =>
          hmax r hr ((ipWindowB_iff ip q (windowFor q) now r).mp hpr) hre)
    simp [canMakeRequest, admissionCore, hu, hi, hip]
  · intro hnone hip hnone2 hcount
    have hu : mostRecent s (userWindowB userId q (windowFor q) now) = none :=
      (mostRecent_eq_none_iff s _).mpr (fun r hr hpr =>
        hnone r hr ((userWindowB_iff userId q (windowFor q) now r).mp hpr))
    have hi : mostRecent s (ipWindowB ip q (windowFor q) now) = none :=
      (mostRecent_eq_none_iff s _).mpr (fun r hr hpr =>
        hnone2 r hr ((ipWindowB_iff ip q (windowFor q) now r).mp hpr))
    simp [canMakeRequest, admissionCore, hu, hi, hip, hcount]
  · intro hnone hip hnone2 hcount
    have hu : mostRecent s (userWindowB userId q (windowFor q) now) = none :=
      (mostRecent_eq_none_iff s _).mpr (fun r hr hpr =>
        hnone r hr ((userWindowB_iff userId q (windowFor q) now r).mp hpr))
    have hi : mostRecent s (ipWindowB ip q (windowFor q) now) = none :=
      (mostRecent_eq_none_iff s _).mpr (fun r hr hpr =>
        hnone2 r hr ((ipWindowB_iff ip q (windowFor q) now r).mp hpr))
    simp [canMakeRequest, admissionCore, hu, hi, hip, not_le.mpr hcount]
  · intro hnone hip
    have hu : mostRecent s (userWindowB userId q (windowFor q) now) = none :=
      (mostRecent_eq_none_iff s _).mpr (fun r hr hpr =>
        hnone r hr ((userWindowB_iff userId q (windowFor q) now r).mp hpr))
    simp [canMakeRequest, admissionCore, hu, hip]

/-- C3 witness: one speed-category entry 10 seconds old denies with the
identity rate limit and 10 seconds remaining. -/
theorem canMakeRequest_check_order_witness :
    canMakeRequest [⟨1, "3", "", "", 0, "a", 990000⟩] 1 "3" "a" 1000000 =
      ⟨false, some DenyReason.userRateLimit, some 10000⟩ := by
  have h := (canMakeRequest_check_order [⟨1, "3", "", "", 0, "a", 990000⟩]
      1 "3" "a" 1000000).1 ⟨1, "3", "", "", 0, "a", 990000⟩
    (by simp) (by decide) (by decide)
  have h2 : (990000 : Int) + windowFor "3" - 1000000 = 10000 := by decide
  rw [h2] at h
  exact h

/-- A burst of 100 recorded balanced-category actions from origin "o" by
identity 1, one second apart, the last at 100099000. -/
def burstStore : ReqStore :=
  (List.range 100).map (fun i => ⟨1, "2", "", "", 0, "o", 100000000 + 1000 * (i : Int)⟩)

set_option maxRecDepth 10000 in
/-- C4 counterexample: with 100 recorded actions from origin "o" inside the
rolling 24 h, the next check at 100129000 — thirty seconds after the last
entry — is denied with the identity rate limit, not the origin daily limit,
because the window checks run first. -/
theorem dailyCap_reason_cex :
    maxDailyRequestsPerIp ≤ dailyCount burstStore "o" 100129000 ∧
    canMakeRequest burstStore 1 "2" "o" 100129000 =
      ⟨false, some DenyReason.userRateLimit, some 30000⟩ := by decide

/-- C4 amended: once the daily count for a supplied origin has reached the
cap, the next check naming that origin is denied whatever the identity and
category are; the reason is the origin daily limit with null timeRemaining
exactly when neither the identity-window nor the origin-window check matches
a recent entry, and otherwise the earlier window check's denial is
returned. -/
theorem dailyCap_denies (s : ReqStore) (userId : Nat) (q ip : String)
    (now : Int) (hip : ip ≠ "")
    (hcount : maxDailyRequestsPerIp ≤ dailyCount s ip now) :
    (canMakeRequest s userId q ip now).canRequest = false ∧
    ((∀ r ∈ s, ¬ inUserWindow userId q (windowFor q) now r) →
     (∀ r ∈ s, ¬ inIpWindow ip q (windowFor q) now r) →
      canMakeRequest s userId q ip now =
        ⟨false, some DenyReason.ipDailyLimit, none⟩) := by
  constructor
  · rcases hu : mostRecent s (userWindowB userId q (windowFor q) now) with _ | e
    · rcases hi : mostRecent s (ipWindowB ip q (windowFor q) now) with _ | e2
      · simp [canMakeRequest, admissionCore, hu, hi, hip, hcount]
      · simp [canMakeRequest, admissionCore, hu, hi, hip]
    · simp [canMakeRequest, admissionCore, hu]
  · intro hnone hnone2
    have hu : mostRecent s (userWindowB userId q (windowFor q) now) = none :=
      (mostRecent_eq_none_iff s _).mpr (fun r hr hpr =>
        hnone r hr ((userWindowB_iff userId q (windowFor q) now r).mp hpr))
    have hi : mostRecent s (ipWindowB ip q (windowFor q) now) = none :=
      (mostRecent_eq_none_iff s _).mpr (fun r hr hpr =>
        hnone2 r hr ((ipWindowB_iff ip q (windowFor q) now r).mp hpr))
    simp [canMakeRequest, admissionCore, hu, hi, hip, hcount]

set_option maxRecDepth 10000 in
/-- C4 amended witness: two minutes after the burst the window checks are
clear and the daily origin limit is the denial. -/
theorem dailyCap_denies_witness :
    canMakeRequest burstStore 1 "2" "o" 100219000 =
      ⟨false, some DenyReason.ipDailyLimit, none⟩ :=
  (dailyCap_denies burstStore 1 "2" "o" 100219000 (by decide) (by decide)).2
    (by decide) (by decide)

/-- C5 counterexample: the identity's only recorded action (category "2",
timestamp 970000) lies inside the default one-minute window at 1000000, yet
a check presenting the unknown category "4" is admitted, because the ledger
queries filter on the literal category value. -/
theorem unknownCategory_not_blocked_cex :
    limits "4" = none ∧
    ((1000000 : Int) - windowFor "4" < 970000) ∧
    canMakeRequest [⟨1, "2", "", "", 0, "a", 970000⟩] 1 "4" "a" 1000000 =
      ⟨true, none, some 0⟩ := by decide

/-- C5 amended: an unknown category falls back to the default one-minute
window length, but the window queries still match the presented category
literally, so when no stored entry carries that category both window checks
pass and only the daily origin cap can deny. -/
theorem unknownCategory_behavior (s : ReqStore) (userId : Nat) (q ip : String)
    (now : Int) (hq : limits q = none) :
    canMakeRequest s userId q ip now =
      admissionCore s userId q (60 * 1000) ip now ∧
    ((∀ r ∈ s, r.qualitySpeed ≠ q) →
      canMakeRequest s userId q ip now =
        if ip ≠ "" ∧ maxDailyRequestsPerIp ≤ dailyCount s ip now
        then ⟨false, some DenyReason.ipDailyLimit, none⟩
        else ⟨true, none, some 0⟩) := by
  constructor
  · simp [canMakeRequest, windowFor, hq]
  · intro hne
    have hu : mostRecent s (userWindowB userId q (windowFor q) now) = none :=
      (mostRecent_eq_none_iff s _).mpr (fun r hr hpr =>
        hne r hr ((userWindowB_iff userId q (windowFor q) now r).mp hpr).2.1)
    have hi : mostRecent s (ipWindowB ip q (windowFor q) now) = none :=
      (mostRecent_eq_none_iff s _).mpr (fun r hr hpr =>
        hne r hr ((ipWindowB_iff ip q (windowFor q) now r).mp hpr).2.1)
    by_cases hip : ip = ""
    · subst hip
      simp [canMakeRequest, admissionCore, hu]
    · by_cases hc : maxDailyRequestsPerIp ≤ dailyCount s ip now
      · simp [canMakeRequest, admissionCore, hu, hi, hip, hc]
      · simp [canMakeRequest, admissionCore, hu, hi, hip, hc]

/-- C5 amended witness: the counterexample store goes through the
no-matching-category clause and is admitted. -/
theorem unknownCategory_behavior_witness :
    canMakeRequest [⟨1, "2", "", "", 0, "a", 970000⟩] 1 "4" "a" 1000000 =
      ⟨true, none, some 0⟩ := by
  have h := (unknownCategory_behavior [⟨1, "2", "", "", 0, "a", 970000⟩] 1 "4"
    "a" 1000000 (by decide)).2 (by decide)
  rw [if_neg (by decide)] at h
  exact h

/-- A shape catalogue for the decision object: exactly four result forms. -/
theorem canMakeRequest_shapes (s : ReqStore) (userId : Nat) (q ip : String)
    (now : Int) :
    canMakeRequest s userId q ip now = ⟨true, none, some 0⟩ ∨
    (∃ t, canMakeRequest s userId q ip now =
      ⟨false, some DenyReason.userRateLimit, some t⟩) ∨
    (∃ t, canMakeRequest s userId q ip now =
      ⟨false, some DenyReason.ipRateLimit, some t⟩) ∨
    canMakeRequest s userId q ip now =
      ⟨false, some DenyReason.ipDailyLimit, none⟩ := by
  rcases hu : mostRecent s (userWindowB userId q (windowFor q) now) with _ | e
  · by_cases hip : ip = ""
    · exact Or.inl (by simp [canMakeRequest, admissionCore, hu, hip])
    · rcases hi : mostRecent s (ipWindowB ip q (windowFor q) now) with _ | e2
      · by_cases hc : maxDailyRequestsPerIp ≤ dailyCount s ip now
        · exact Or.inr (Or.inr (Or.inr
            (by simp [canMakeRequest, admissionCore, hu, hi, hip, hc])))
        · exact Or.inl (by simp [canMakeRequest, admissionCore, hu, hi, hip, hc])
      · exact Or.inr (Or.inr (Or.inl
          ⟨e2.timestamp + windowFor q - now,
           by simp [canMakeRequest, admissionCore, hu, hi, hip]⟩))
  · exact Or.inr (Or.inl ⟨e.timestamp + windowFor q - now,
      by simp [canMakeRequest, admissionCore, hu]⟩)

/-- C10: a denial for the daily origin limit carries a null timeRemaining,
and `getTimeRemaining` coerces that null to 0 — the very value it returns
for an admitted caller. -/
theorem getTimeRemaining_coerces (s : ReqStore) (userId : Nat) (q ip : String)
    (now : Int) :
    ((canMakeRequest s userId q ip now).reason = some DenyReason.ipDailyLimit →
      (canMakeRequest s userId q ip now).timeRemaining = none ∧
      getTimeRemaining s userId q ip now = 0) ∧
    ((canMakeRequest s userId q ip now).canRequest = true →
      getTimeRemaining s userId q ip now = 0) := by
  rcases canMakeRequest_shapes s userId q ip now with h | ⟨t, h⟩ | ⟨t, h⟩ | h
  · exact ⟨by simp [h], fun _ => by simp [getTimeRemaining, h]⟩
  · exact ⟨by simp [h], by simp [h]⟩
  · exact ⟨by simp [h], by simp [h]⟩
  · exact ⟨fun _ => ⟨by simp [h], by simp [getTimeRemaining, h, jsOrZero]⟩,
      by simp [h]⟩

set_option maxRecDepth 10000 in
/-- C10 witness: a daily-capped caller and an admitted caller both read 0
milliseconds remaining. -/
theorem getTimeRemaining_coerces_witness :
    getTimeRemaining burstStore 1 "2" "o" 100219000 = 0 ∧
    getTimeRemaining [] 1 "2" "o" 100219000 = 0 :=
  ⟨((getTimeRemaining_coerces burstStore 1 "2" "o" 100219000).1 (by decide)).2,
   (getTimeRemaining_coerces [] 1 "2" "o" 100219000).2 (by decide)⟩

theorem saveUser_forall₂ (us : List UserRecord) (userId : Nat)
    (u : UserRecord) (ips : List IpEntry)
    (h : us.find? (fun x => x.id == userId) = some u) :
    List.Forall₂ (fun a b => b = a ∨
        (a = u ∧ b = { u with ipAddresses := ips }))
      us (saveUser us { u with ipAddresses := ips }) := by
  induction us with
  | nil => simp at h
  | cons x xs ih =>
    by_cases hx : (x.id == userId) = true
    · have hux : u = x := by
        rw [@List.find?_cons_of_pos _ (fun y => y.id == userId) x xs hx] at h
        exact (Option.some_inj.mp h).symm
      subst hux
      show List.Forall₂ _ (u :: xs) (if u.id == _ then _ else _)
      rw [if_pos (by simp)]
      exact List.Forall₂.cons
        (Or.inr ⟨rfl, rfl⟩)
        (List.forall₂_same.mpr (fun y _ => Or.inl rfl))
    · rw [@List.find?_cons_of_neg _ (fun y => y.id == userId) x xs hx] at h
      have hu_id : u.id = userId := by
        have h2 := List.find?_some h
        simpa using h2
      have hxv : ¬ (x.id == ({ u with ipAddresses := ips } : UserRecord).id) = true := by
        have hne : x.id ≠ userId := by simpa using hx
        simpa [hu_id] using hne
      show List.Forall₂ _ (x :: xs) (if x.id == _ then _ else _)
      rw [if_neg hxv]
      exact List.Forall₂.cons (Or.inl rfl) (ih h)

/-- C9: the admission check is side-effect-free — its body is only `findOne`
and `countDocuments` reads, so the state after `checkAdmission` is the state
before it and its decision is a pure function of the ledger; `recordRequest`
appends exactly one ledger entry, leaves tokens alone, and rewrites no user
except the acting identity, whose only change is `updateIpAddress` on its
origin history. -/
theorem checkAdmission_pure_record_frame (st : AppState) (userId : Nat)
    (q ch nv : String) (len : Int) (ip : String) (now : Int) :
    (checkAdmission st userId q ip now).2 = st ∧
    (checkAdmission st userId q ip now).1 =
      canMakeRequest st.requests userId q ip now ∧
    (recordRequest st userId q ch nv len ip now).tokens = st.tokens ∧
    (recordRequest st userId q ch nv len ip now).requests =
      st.requests ++ [⟨userId, if q = "" then "2" else q, nv, ch, len, ip, now⟩] ∧
    List.Forall₂ (fun a b => b = a ∨ (a.id = userId ∧ b.id = a.id ∧
        b.ipAddresses = updateIpAddress a.ipAddresses ip now))
      st.users (recordRequest st userId q ch nv len ip now).users := by
  by_cases hip : ip = ""
  · have hst : recordRequest st userId q ch nv len ip now =
        { st with requests := st.requests ++
          [⟨userId, if q = "" then "2" else q, nv, ch, len, ip, now⟩] } := by
      simp [recordRequest, hip]
    refine ⟨rfl, rfl, ?_, ?_, ?_⟩ <;> rw [hst]
    exact List.forall₂_same.mpr (fun x _ => Or.inl rfl)
  · rcases hfind : st.users.find? (fun u => u.id == userId) with _ | user
    · have hst : recordRequest st userId q ch nv len ip now =
          { st with requests := st.requests ++
            [⟨userId, if q = "" then "2" else q, nv, ch, len, ip, now⟩] } := by
        simp [recordRequest, hip, hfind]
      refine ⟨rfl, rfl, ?_, ?_, ?_⟩ <;> rw [hst]
      exact List.forall₂_same.mpr (fun x _ => Or.inl rfl)
    · have hst : recordRequest st userId q ch nv len ip now =
          { st with
            requests := st.requests ++
              [⟨userId, if q = "" then "2" else q, nv, ch, len, ip, now⟩],
            users := saveUser st.users
              { user with ipAddresses := updateIpAddress user.ipAddresses ip now } } := by
        simp [recordRequest, hip, hfind]
      refine ⟨rfl, rfl, ?_, ?_, ?_⟩ <;> rw [hst]
      have huid : user.id = userId := by
        have h2 := List.find?_some hfind
        simpa using h2
      exact List.Forall₂.imp
        (fun a b hab =>
          match hab with
          | Or.inl hba => Or.inl hba
          | Or.inr ⟨ha, hb⟩ => Or.inr (by
              subst ha
              subst hb
              exact ⟨huid, rfl, rfl⟩))
        (saveUser_forall₂ st.users userId user
          (updateIpAddress user.ipAddresses ip now) hfind)

/-! ### Origin-history LRU: touch sequences -/

/-- A sequence of origin touches applied through `updateIpAddress`, left to
right — the successive logins and recorded requests of one identity. -/
def applyTouches (l : List IpEntry) : List (String × Int) → List IpEntry
  | [] => l
  | t :: ts => applyTouches (updateIpAddress l t.1 t.2) ts

/-- The time of the last touch of origin `a` in the sequence (0 when never
touched; only used under a membership hypothesis). -/
def lastTouch (ts : List (String × Int)) (a : String) : Int :=
  ts.foldl (fun acc p => if p.1 = a then p.2 else acc) 0

theorem applyTouches_append (l : List IpEntry) (ts : List (String × Int))
    (t : String × Int) :
    applyTouches l (ts ++ [t]) =
      updateIpAddress (applyTouches l ts) t.1 t.2 := by
  induction ts generalizing l with
  | nil => rfl
  | cons u us ih => exact ih (updateIpAddress l u.1 u.2)

theorem lastTouch_append (ts : List (String × Int)) (p : String × Int)
    (a : String) :
    lastTouch (ts ++ [p]) a = if p.1 = a then p.2 else lastTouch ts a := by
  simp [lastTouch, List.foldl_append]

theorem lastTouch_mem_eq (ts : List (String × Int)) (a : String)
    (h : a ∈ ts.map Prod.fst) :
    ∃ p ∈ ts, p.1 = a ∧ lastTouch ts a = p.2 := by
  induction ts using List.reverseRecOn with
  | nil => simp at h
  | append_singleton us p ih =>
    rw [lastTouch_append]
    by_cases hp : p.1 = a
    · exact ⟨p, by simp, hp, by rw [if_pos hp]⟩
    · have h2 : a ∈ us.map Prod.fst := by
        rcases List.mem_map.mp h with ⟨x, hx, hxa⟩
        rcases List.mem_append.mp hx with hx1 | hx2
        · simpa [hxa] using List.mem_map_of_mem Prod.fst hx1
        · have : x = p := by simpa using hx2
          exact absurd (this ▸ hxa) hp
      obtain ⟨x, hx, hxa, hval⟩ := ih h2
      exact ⟨x, List.mem_append_left _ hx, hxa, by rw [if_neg hp]; exact hval⟩

theorem lastTouch_lt_next (ts : List (String × Int)) (a : String) (n : Int)
    (h : a ∈ ts.map Prod.fst) (htime : ∀ x ∈ ts.map Prod.snd, x < n) :
    lastTouch ts a < n := by
  obtain ⟨p, hp, _, hval⟩ := lastTouch_mem_eq ts a h
  rw [hval]
  exact htime p.2 (List.mem_map_of_mem Prod.snd hp)

theorem lastTouch_injOn (ts : List (String × Int))
    (hts : (ts.map Prod.snd).Pairwise (· < ·))
    (a b : String) (ha : a ∈ ts.map Prod.fst) (hb : b ∈ ts.map Prod.fst)
    (hab : a ≠ b) : lastTouch ts a ≠ lastTouch ts b := by
  obtain ⟨p, hp, hpa, hva⟩ := lastTouch_mem_eq ts a ha
  obtain ⟨r, hr, hrb, hvb⟩ := lastTouch_mem_eq ts b hb
  have hsnd : (ts.map Prod.snd).Nodup := hts.imp (fun h => ne_of_lt h)
  intro hcontra
  rw [hva, hvb] at hcontra
  have : p = r := List.inj_on_of_nodup_map hsnd hp hr hcontra
  exact hab (hpa ▸ hrb ▸ this ▸ rfl)

/-! ### Sorting lemmas for the pruning step -/

theorem insertDesc_perm (e : IpEntry) (l : List IpEntry) :
    (insertDesc e l).Perm (e :: l) := by
  induction l with
  | nil => exact List.Perm.refl _
  | cons x xs ih =>
    by_cases h : lastUsedDesc e x
    · rw [insertDesc, if_pos h]
    · rw [insertDesc, if_neg h]
      exact (ih.cons x).trans (List.Perm.swap e x xs)

theorem sortDesc_perm (l : List IpEntry) : (sortDesc l).Perm l := by
  induction l with
  | nil => exact List.Perm.refl _
  | cons x xs ih => exact (insertDesc_perm x (sortDesc xs)).trans (ih.cons x)

theorem insertDesc_sorted (e : IpEntry) (l : List IpEntry)
    (h : l.Pairwise (fun a b => b.lastUsed ≤ a.lastUsed)) :
    (insertDesc e l).Pairwise (fun a b => b.lastUsed ≤ a.lastUsed) := by
  induction l with
  | nil => simp [insertDesc]
  | cons x xs ih =>
    rcases List.pairwise_cons.mp h with ⟨hx, hxs⟩
    by_cases hc : lastUsedDesc e x
    · have hc2 : x.lastUsed ≤ e.lastUsed := by simpa [lastUsedDesc] using hc
      rw [insertDesc, if_pos hc]
      refine List.pairwise_cons.mpr ⟨?_, h⟩
      intro y hy
      rcases List.mem_cons.mp hy with rfl | hy2
      · exact hc2
      · exact (hx y hy2).trans hc2
    · rw [insertDesc, if_neg hc]
      refine List.pairwise_cons.mpr ⟨?_, ih hxs⟩
      intro y hy
      have hy3 := (insertDesc_perm e xs).mem_iff.mp hy
      rcases List.mem_cons.mp hy3 with rfl | hy4
      · exact le_of_lt (lt_of_not_ge (by simpa [lastUsedDesc] using hc))
      · exact hx y hy4

theorem sortDesc_sorted (l : List IpEntry) :
    (sortDesc l).Pairwise (fun a b => b.lastUsed ≤ a.lastUsed) := by
  induction l with
  | nil => simp [sortDesc]
  | cons x xs ih => exact insertDesc_sorted x (sortDesc xs) ih

theorem touchExisting_eq_map (l : List IpEntry) (a : String) (n : Int)
    (h : (l.map IpEntry.ip).Nodup) :
    touchExisting l a n = l.map (fun x => if x.ip = a then
      { x with lastUsed := n, requestCount := x.requestCount + 1 } else x) := by
  induction l with
  | nil => rfl
  | cons x xs ih =>
    simp only [List.map_cons, List.nodup_cons] at h
    by_cases hx : x.ip = a
    · have htail : ∀ y ∈ xs, y.ip ≠ a := fun y hy hya =>
        h.1 (hx ▸ hya ▸ List.mem_map_of_mem IpEntry.ip hy)
      have hmap : xs.map (fun x => if x.ip = a then
          { x with lastUsed := n, requestCount := x.requestCount + 1 }
          else x) = xs := by
        rw [List.map_congr_left (fun y hy => if_neg (htail y hy))]
        exact List.map_id xs
      simp [touchExisting, hx, hmap]
    · simp [touchExisting, hx, ih h.2]

theorem touchExisting_length (l : List IpEntry) (a : String) (n : Int) :
    (touchExisting l a n).length = l.length := by
  induction l with
  | nil => rfl
  | cons x xs ih =>
    by_cases hx : (x.ip == a) = true <;> simp [touchExisting, hx, ih]

/-- The entry pushed for a first-seen origin: `{ ip, firstSeen: now,
lastUsed: now, requestCount: 1 }`. -/
def newEntry (t : String × Int) : IpEntry := ⟨t.1, t.2, t.2, 1⟩

/-- Invariant of one identity's origin history after the touch sequence
`ts`: distinct origins, at most 10 entries, every entry carries its origin's
last-touch time, every seen origin is present while the history is not full,
and every seen-but-absent origin is strictly older than every kept entry. -/
def TouchInv (ts : List (String × Int)) (L : List IpEntry) : Prop :=
  (L.map IpEntry.ip).Nodup ∧
  L.length ≤ 10 ∧
  (∀ e ∈ L, e.ip ∈ ts.map Prod.fst ∧ e.lastUsed = lastTouch ts e.ip) ∧
  (L.length < 10 → ∀ a ∈ ts.map Prod.fst, a ∈ L.map IpEntry.ip) ∧
  (∀ a ∈ ts.map Prod.fst, a ∉ L.map IpEntry.ip →
    ∀ e ∈ L, lastTouch ts a < e.lastUsed)

theorem touchInv_step (ts : List (String × Int)) (t : String × Int)
    (L : List IpEntry)
    (hts : (ts.map Prod.snd).Pairwise (· < ·))
    (hinv : TouchInv ts L)
    (ha : t.1 ≠ "")
    (htime : ∀ x ∈ ts.map Prod.snd, x < t.2) :
    TouchInv (ts ++ [t]) (updateIpAddress L t.1 t.2) := by
  obtain ⟨hnd, hlen, hmem, hfull, hdom⟩ := hinv
  have hseen' : (ts ++ [t]).map Prod.fst = ts.map Prod.fst ++ [t.1] := by
    simp
  have hts' : ((ts ++ [t]).map Prod.snd).Pairwise (· < ·) := by
    rw [List.map_append]
    refine List.pairwise_append.mpr ⟨hts, by simp, ?_⟩
    intro x hx b hb
    have hb2 : b = t.2 := by simpa using hb
    exact hb2 ▸ htime x hx
  unfold TouchInv
  by_cases hany : L.any (fun e => e.ip == t.1) = true
  · -- the touched origin is already present: in-place update, no pruning
    obtain ⟨e0, he0, he0ip⟩ := List.any_eq_true.mp hany
    have he0ip2 : e0.ip = t.1 := by simpa using he0ip
    have hwin : t.1 ∈ L.map IpEntry.ip :=
      he0ip2 ▸ List.mem_map_of_mem IpEntry.ip he0
    have hlen_te : (touchExisting L t.1 t.2).length = L.length :=
      touchExisting_length L t.1 t.2
    have hupd : updateIpAddress L t.1 t.2 = touchExisting L t.1 t.2 := by
      simp [updateIpAddress, ha, hany, hlen_te, not_lt.mpr hlen]
    rw [hupd, touchExisting_eq_map L t.1 t.2 hnd]
    have hipf : ∀ x : IpEntry, ((if x.ip = t.1 then
        { x with lastUsed := t.2, requestCount := x.requestCount + 1 }
        else x) : IpEntry).ip = x.ip := by
      intro x
      by_cases hx : x.ip = t.1 <;> simp [hx]
    have hips_eq : (L.map (fun x => if x.ip = t.1 then
        { x with lastUsed := t.2, requestCount := x.requestCount + 1 }
        else x)).map IpEntry.ip = L.map IpEntry.ip := by
      rw [List.map_map]
      exact List.map_congr_left (fun x _ => hipf x)
    refine ⟨?_, ?_, ?_, ?_, ?_⟩
    · rw [hips_eq]
      exact hnd
    · rw [List.length_map]
      exact hlen
    · intro e' he'
      obtain ⟨x, hx, rfl⟩ := List.mem_map.mp he'
      by_cases hxw : x.ip = t.1
      · rw [if_pos hxw]
        constructor
        · show x.ip ∈ (ts ++ [t]).map Prod.fst
          rw [hseen', hxw]
          exact List.mem_append_right _ (by simp)
        · show t.2 = lastTouch (ts ++ [t]) x.ip
          rw [lastTouch_append, if_pos hxw.symm]
      · rw [if_neg hxw]
        refine ⟨?_, ?_⟩
        · rw [hseen']
          exact List.mem_append_left _ (hmem x hx).1
        · rw [lastTouch_append, if_neg (fun hh => hxw hh.symm)]
          exact (hmem x hx).2
    · intro hl a haseen
      rw [hips_eq]
      rw [List.length_map] at hl
      rw [hseen'] at haseen
      rcases List.mem_append.mp haseen with h1 | h1
      · exact hfull hl a h1
      · have h2 : a = t.1 := by simpa using h1
        exact h2 ▸ hwin
    · intro a haseen hanot e' he'
      rw [hips_eq] at hanot
      rw [hseen'] at haseen
      have haw : a ≠ t.1 := fun hh => hanot (hh ▸ hwin)
      have haseen2 : a ∈ ts.map Prod.fst := by
        rcases List.mem_append.mp haseen with h1 | h1
        · exact h1
        · exact absurd (by simpa using h1) haw
      rw [lastTouch_append, if_neg (fun hh => haw hh.symm)]
      obtain ⟨x, hx, rfl⟩ := List.mem_map.mp he'
      by_cases hxw : x.ip = t.1
      · rw [if_pos hxw]
        show lastTouch ts a < t.2
        exact lastTouch_lt_next ts a t.2 haseen2 htime
      · rw [if_neg hxw]
        exact hdom a haseen2 hanot x hx
  · -- fresh origin: push, prune when the history overflows
    have hanyf : L.any (fun e => e.ip == t.1) = false := by
      simpa using hany
    have hB : ∀ e ∈ L, e.ip ≠ t.1 := by
      intro e he hip
      exact hany (List.any_eq_true.mpr ⟨e, he, by simp [hip]⟩)
    have hwnot : t.1 ∉ L.map IpEntry.ip := by
      intro hw
      obtain ⟨e, he, heip⟩ := List.mem_map.mp hw
      exact hB e he heip
    have hmem1 : ∀ e ∈ L ++ [newEntry t],
        e.ip ∈ (ts ++ [t]).map Prod.fst ∧
        e.lastUsed = lastTouch (ts ++ [t]) e.ip := by
      intro e he
      rcases List.mem_append.mp he with h1 | h1
      · refine ⟨by rw [hseen']; exact List.mem_append_left _ (hmem e h1).1, ?_⟩
        rw [lastTouch_append, if_neg (fun hh => hB e h1 hh.symm)]
        exact (hmem e h1).2
      · have he2 : e = newEntry t := by simpa using h1
        subst he2
        refine ⟨by rw [hseen']; exact List.mem_append_right _ (by simp [newEntry]), ?_⟩
        show t.2 = lastTouch (ts ++ [t]) (newEntry t).ip
        rw [show (newEntry t).ip = t.1 from rfl, lastTouch_append, if_pos rfl]
    have hnd1 : ((L ++ [newEntry t]).map IpEntry.ip).Nodup := by
      rw [List.map_append]
      refine List.Nodup.append hnd (by simp) ?_
      intro a haL hasing
      have h2 : a = t.1 := by simpa [newEntry] using hasing
      exact hwnot (h2 ▸ haL)
    have hwin1 : t.1 ∈ (L ++ [newEntry t]).map IpEntry.ip := by
      rw [List.map_append]
      exact List.mem_append_right _ (by simp [newEntry])
    by_cases hp : 10 < (L ++ [newEntry t]).length
    · -- overflow: sort by lastUsed descending, keep 10
      have hL10 : L.length = 10 := by
        rw [List.length_append] at hp
        simp only [List.length_singleton] at hp
        omega
      have hupd : updateIpAddress L t.1 t.2 =
          (sortDesc (L ++ [newEntry t])).take 10 := by
        simp [updateIpAddress, ha, hanyf, newEntry, hL10]
      have hpermM : (sortDesc (L ++ [newEntry t])).Perm (L ++ [newEntry t]) :=
        sortDesc_perm _
      have hlenl1 : (L ++ [newEntry t]).length = 11 := by
        rw [List.length_append, hL10]
        rfl
      have hlenM : (sortDesc (L ++ [newEntry t])).length = 11 := by
        rw [hpermM.length_eq, hlenl1]
      have hndl1 : (L ++ [newEntry t]).Nodup :=
        List.Nodup.of_map IpEntry.ip hnd1
      have hndM : (sortDesc (L ++ [newEntry t])).Nodup :=
        hpermM.nodup_iff.mpr hndl1
      have hndMip : ((sortDesc (L ++ [newEntry t])).map IpEntry.ip).Nodup :=
        (hpermM.map IpEntry.ip).nodup_iff.mpr hnd1
      have hdroplen : ((sortDesc (L ++ [newEntry t])).drop 10).length = 1 := by
        rw [List.length_drop, hlenM]
      obtain ⟨d, hd⟩ := List.length_eq_one.mp hdroplen
      have hMsplit : sortDesc (L ++ [newEntry t]) =
          (sortDesc (L ++ [newEntry t])).take 10 ++ [d] := by
        have h2 := (List.take_append_drop 10 (sortDesc (L ++ [newEntry t]))).symm
        rw [hd] at h2
        exact h2
      have hge : ∀ x ∈ (sortDesc (L ++ [newEntry t])).take 10,
          d.lastUsed ≤ x.lastUsed := by
        have hsorted := sortDesc_sorted (L ++ [newEntry t])
        rw [hMsplit] at hsorted
        have h3 := (List.pairwise_append.mp hsorted).2.2
        intro x hx
        exact h3 x hx d (by simp)
      have hd_mem_M : d ∈ sortDesc (L ++ [newEntry t]) := by
        rw [hMsplit]
        exact List.mem_append_right _ (by simp)
      have hd_l1 : d ∈ L ++ [newEntry t] := hpermM.mem_iff.mp hd_mem_M
      have hsub : ∀ e ∈ (sortDesc (L ++ [newEntry t])).take 10,
          e ∈ L ++ [newEntry t] :=
        fun e he => hpermM.mem_iff.mp (List.mem_of_mem_take he)
      have hdisj : ∀ e ∈ (sortDesc (L ++ [newEntry t])).take 10, e ≠ d := by
        have hnd2 := hndM
        rw [hMsplit, List.nodup_append] at hnd2
        intro e he hed
        exact hnd2.2.2 he (by simp [hed])
      have hstrict : ∀ x ∈ (sortDesc (L ++ [newEntry t])).take 10,
          d.lastUsed < x.lastUsed := by
        intro x hx
        refine lt_of_le_of_ne (hge x hx) ?_
        intro heq
        have hx1 : x ∈ L ++ [newEntry t] := hsub x hx
        have hipne : x.ip ≠ d.ip := by
          intro hipeq
          exact hdisj x hx (List.inj_on_of_nodup_map hnd1 hx1 hd_l1 hipeq)
        have hxm := hmem1 x hx1
        have hdm := hmem1 d hd_l1
        exact lastTouch_injOn (ts ++ [t]) hts' x.ip d.ip hxm.1 hdm.1 hipne
          (by rw [← hxm.2, ← hdm.2, heq])
      rw [hupd]
      refine ⟨?_, ?_, ?_, ?_, ?_⟩
      · rw [List.map_take]
        exact List.Nodup.sublist (List.take_sublist 10 _) hndMip
      · rw [List.length_take, hlenM]
        exact min_le_left 10 11
      · exact fun e he => hmem1 e (hsub e he)
      · intro hl
        exfalso
        rw [List.length_take, hlenM] at hl
        exact absurd hl (by decide)
      · intro a haseen hanot e' he'
        by_cases hal1 : a ∈ (L ++ [newEntry t]).map IpEntry.ip
        · have haM : a ∈ (sortDesc (L ++ [newEntry t])).map IpEntry.ip :=
            (hpermM.map IpEntry.ip).mem_iff.mpr hal1
          have had : a = d.ip := by
            rw [hMsplit, List.map_append] at haM
            rcases List.mem_append.mp haM with h1 | h1
            · exact absurd h1 hanot
            · simpa using h1
          subst had
          have hdm := hmem1 d hd_l1
          rw [← hdm.2]
          exact hstrict e' he'
        · have haw : a ≠ t.1 := fun hh => hal1 (hh ▸ hwin1)
          have haseen2 : a ∈ ts.map Prod.fst := by
            rw [hseen'] at haseen
            rcases List.mem_append.mp haseen with h1 | h1
            · exact h1
            · exact absurd (by simpa using h1) haw
          have hanotL : a ∉ L.map IpEntry.ip := by
            intro hh
            apply hal1
            rw [List.map_append]
            exact List.mem_append_left _ hh
          rw [lastTouch_append, if_neg (fun hh => haw hh.symm)]
          rcases List.mem_append.mp (hsub e' he') with h1 | h1
          · exact hdom a haseen2 hanotL e' h1
          · have he2 : e' = newEntry t := by simpa using h1
            subst he2
            show lastTouch ts a < t.2
            exact lastTouch_lt_next ts a t.2 haseen2 htime
    · -- still room: plain push
      have h9 : L.length ≤ 9 := by
        rw [List.length_append] at hp
        simp only [List.length_singleton] at hp
        omega
      have hupd : updateIpAddress L t.1 t.2 = L ++ [newEntry t] := by
        simp only [updateIpAddress, ha, hanyf, newEntry, if_neg, if_false,
          Bool.false_eq_true, ite_false, ite_eq_right_iff]
        intro hcon
        rw [List.length_append, List.length_singleton] at hcon
        exact absurd hcon (by omega)
      rw [hupd]
      refine ⟨hnd1, not_lt.mp hp, hmem1, ?_, ?_⟩
      · intro hl a haseen
        rw [hseen'] at haseen
        rcases List.mem_append.mp haseen with h1 | h1
        · have hlL : L.length < 10 := by
            rw [List.length_append] at hl
            simp only [List.length_singleton] at hl
            omega
          rw [List.map_append]
          exact List.mem_append_left _ (hfull hlL a h1)
        · have h2 : a = t.1 := by simpa using h1
          exact h2 ▸ hwin1
      · intro a haseen hanot e' he'
        rw [hseen'] at haseen
        have haw : a ≠ t.1 := fun hh => hanot (hh ▸ hwin1)
        have haseen2 : a ∈ ts.map Prod.fst := by
          rcases List.mem_append.mp haseen with h1 | h1
          · exact h1
          · exact absurd (by simpa using h1) haw
        have hanotL : a ∉ L.map IpEntry.ip := by
          intro hh
          apply hanot
          rw [List.map_append]
          exact List.mem_append_left _ hh
        rw [lastTouch_append, if_neg (fun hh => haw hh.symm)]
        rcases List.mem_append.mp he' with h1 | h1
        · exact hdom a haseen2 hanotL e' h1
        · have he2 : e' = newEntry t := by simpa using h1
          subst he2
          show lastTouch ts a < t.2
          exact lastTouch_lt_next ts a t.2 haseen2 htime

theorem touchInv_applyTouches (ts : List (String × Int))
    (hts : (ts.map Prod.snd).Pairwise (· < ·))
    (hips : ∀ p ∈ ts, p.1 ≠ "") :
    TouchInv ts (applyTouches [] ts) := by
  induction ts using List.reverseRecOn with
  | nil =>
    show TouchInv [] []
    exact ⟨by simp, by simp, by simp, by simp, by simp⟩
  | append_singleton us t ih =>
    rw [List.map_append] at hts
    have hts_us : (us.map Prod.snd).Pairwise (· < ·) :=
      (List.pairwise_append.mp hts).1
    have htime : ∀ x ∈ us.map Prod.snd, x < t.2 := by
      intro x hx
      have h3 := (List.pairwise_append.mp hts).2.2 x hx t.2 (by simp)
      exact h3
    rw [applyTouches_append]
    exact touchInv_step us t _ hts_us
      (ih hts_us (fun p hp => hips p (List.mem_append_left _ hp)))
      (hips t (List.mem_append_right _ (by simp))) htime

/-- C8: along any sequence of distinct-time touches of non-empty origins,
the origin history stays duplicate-free with length `min 10 (number of
distinct origins seen)`, each entry carries its origin's last-touch time,
each seen-but-evicted origin is strictly older than every kept entry (and
while the history is not full nothing is evicted) — i.e. the kept entries
are exactly the ten most recently used origins; and a touch of an origin
already present only sets its `lastUsed` to now and increments its hit
count. -/
theorem updateIpAddress_lru (ts : List (String × Int))
    (hts : (ts.map Prod.snd).Pairwise (· < ·))
    (hips : ∀ p ∈ ts, p.1 ≠ "") :
    ((applyTouches [] ts).map IpEntry.ip).Nodup ∧
    (applyTouches [] ts).length = min 10 ((ts.map Prod.fst).dedup.length) ∧
    (∀ e ∈ applyTouches [] ts,
      e.ip ∈ ts.map Prod.fst ∧ e.lastUsed = lastTouch ts e.ip) ∧
    (∀ a ∈ ts.map Prod.fst, a ∉ (applyTouches [] ts).map IpEntry.ip →
      ∀ e ∈ applyTouches [] ts, lastTouch ts a < e.lastUsed) ∧
    ((applyTouches [] ts).length < 10 →
      ∀ a ∈ ts.map Prod.fst, a ∈ (applyTouches [] ts).map IpEntry.ip) ∧
    (∀ (l : List IpEntry) (a : String) (n : Int) (e : IpEntry),
      (l.map IpEntry.ip).Nodup → l.length ≤ 10 → a ≠ "" → e ∈ l → e.ip = a →
      updateIpAddress l a n = l.map (fun x => if x.ip = a then
        { x with lastUsed := n, requestCount := x.requestCount + 1 }
        else x)) := by
  obtain ⟨hnd, hlen, hmem, hfull, hdom⟩ := touchInv_applyTouches ts hts hips
  have hips_sub : ∀ a ∈ (applyTouches [] ts).map IpEntry.ip,
      a ∈ ts.map Prod.fst := by
    intro a ha
    obtain ⟨e, he, rfl⟩ := List.mem_map.mp ha
    exact (hmem e he).1
  refine ⟨hnd, ?_, hmem, hdom, hfull, ?_⟩
  · by_cases hL : (applyTouches [] ts).length < 10
    · have hperm : ((applyTouches [] ts).map IpEntry.ip).Perm
          (ts.map Prod.fst).dedup := by
        rw [List.perm_ext_iff_of_nodup hnd (List.nodup_dedup _)]
        intro a
        constructor
        · intro ha
          exact List.mem_dedup.mpr (hips_sub a ha)
        · intro ha
          exact hfull hL a (List.mem_dedup.mp ha)
      have hlen_eq : (applyTouches [] ts).length =
          (ts.map Prod.fst).dedup.length := by
        have h2 := hperm.length_eq
        rw [List.length_map] at h2
        exact h2
      omega
    · have hsp : ((applyTouches [] ts).map IpEntry.ip).Subperm
          (ts.map Prod.fst).dedup :=
        List.subperm_of_subset hnd
          (fun a ha => List.mem_dedup.mpr (hips_sub a ha))
      have hge10 : 10 ≤ (ts.map Prod.fst).dedup.length := by
        have h2 := hsp.length_le
        rw [List.length_map] at h2
        omega
      omega
  · intro l a n e hnd2 hlen2 ha2 he hip
    have hany : l.any (fun x => x.ip == a) = true :=
      List.any_eq_true.mpr ⟨e, he, by simp [hip]⟩
    have hupd : updateIpAddress l a n = touchExisting l a n := by
      simp [updateIpAddress, ha2, hany, touchExisting_length, not_lt.mpr hlen2]
    rw [hupd]
    exact touchExisting_eq_map l a n hnd2

/-- C8 witness: twelve touches — ten distinct origins, a re-touch of the
first, then an eleventh origin that forces one eviction; plus one in-place
touch of a singleton history. -/
theorem updateIpAddress_lru_witness :
    ((applyTouches [] [("a", 1), ("b", 2), ("c", 3), ("d", 4), ("e", 5),
        ("f", 6), ("g", 7), ("h", 8), ("i", 9), ("j", 10), ("a", 11),
        ("k", 12)]).map IpEntry.ip).Nodup ∧
    (applyTouches [] [("a", 1), ("b", 2), ("c", 3), ("d", 4), ("e", 5),
        ("f", 6), ("g", 7), ("h", 8), ("i", 9), ("j", 10), ("a", 11),
        ("k", 12)]).length = 10 ∧
    updateIpAddress [⟨"x", 0, 0, 1⟩] "x" 5 = [⟨"x", 0, 5, 2⟩] := by
  have h := updateIpAddress_lru [("a", 1), ("b", 2), ("c", 3), ("d", 4),
    ("e", 5), ("f", 6), ("g", 7), ("h", 8), ("i", 9), ("j", 10), ("a", 11),
    ("k", 12)] (by decide) (by decide)
  refine ⟨h.1, ?_, ?_⟩
  · have h2 := h.2.1
    rw [show min 10 (((([("a", 1), ("b", 2), ("c", 3), ("d", 4), ("e", 5),
        ("f", 6), ("g", 7), ("h", 8), ("i", 9), ("j", 10), ("a", 11),
        ("k", 12)] : List (String × Int)).map Prod.fst).dedup).length) = 10
      from by decide] at h2
    exact h2
  · have h3 := h.2.2.2.2.2 [⟨"x", 0, 0, 1⟩] "x" 5 ⟨"x", 0, 0, 1⟩
      (by decide) (by decide) (by decide) (by simp) rfl
    exact h3.trans (by decide)

end NovelSummarizer

